import Mathlib

/-!
Verification of the bill-splitting core of the `fastaccurate/bill`
application: the Split Calculator, the Balance Engine, the Settlement
Ledger and the Reminder Candidate Selector.

Conventions of the shallow embedding:
* JavaScript numbers are modelled by exact rationals (`ℚ`); IEEE-754
  rounding of the host language is outside the model.
* JavaScript objects used as finite maps (`{ id: value }`) are modelled
  by association lists `List (Nat × ℚ)`, with `List.lookup` as property
  access.  Member / participant identifiers are modelled by `Nat`.
* The Split Calculator (`calculateSplit` in
  `frontend/src/services/api.js`) is translated directly from source.
  The backend Balance Engine, Settlement Ledger and Reminder Candidate
  Selector are not among the repository's source files (only their HTTP
  callers are), so they are modelled from the specification; those
  definitions carry a `Modelled from the spec:` doc comment.
-/

namespace Bill

/-- The `data` argument of `calculateSplit`: a JS object that may carry
`amounts` (for the `exact` method) and `percentages` (for the
`percentage` method), each a map from participant id to a number.
The absent field is modelled by the empty association list. -/
structure SplitData where
  amounts : List (Nat × ℚ)
  percentages : List (Nat × ℚ)

/-- JS property access with a falsy default: `m[k] || d` (for `d` and the
stored values numeric; a stored `0` is falsy in JS, but `0 || 0 = 0`, so
the default-on-missing reading is exact for default `0`). -/
def lookupD (l : List (Nat × ℚ)) (k : Nat) (d : ℚ) : ℚ :=
  match l.lookup k with
  | some v => v
  | none => d

/-- `calculateSplit(amount, participants, method, data)` from
`frontend/src/services/api.js`:

* `equal`: every participant is assigned `totalAmount / participants.length`;
* `exact`: returns `data.amounts || {}` unchanged;
* `percentage`: every participant is assigned
  `totalAmount * (data.percentages[id] || 0) / 100`;
* any other method: returns the empty object.

The JS `switch` on the method string is an equality chain; the result
object built by `reduce` is the association list of `(id, share)` pairs
in participant order.  (For the participant-indexed branches all entries
with equal ids carry equal values, so first-match lookup agrees with the
JS object's last-write-wins.) -/
def calculateSplit (amount : ℚ) (participants : List Nat) (method : String)
    (data : SplitData) : List (Nat × ℚ) :=
  if method = "equal" then
    let amountPerPerson := amount / (participants.length : ℚ)
    participants.map (fun pid => (pid, amountPerPerson))
  else if method = "exact" then
    data.amounts
  else if method = "percentage" then
    participants.map (fun pid => (pid, amount * lookupD data.percentages pid 0 / 100))
  else
    []

/-- The total of the shares in a share mapping. -/
def sumShares (shares : List (Nat × ℚ)) : ℚ :=
  (shares.map Prod.snd).sum

/-- Modelled from the spec: a Participation row of the Settlement Ledger
(the backend model layer is not among the repository's sources).  One
member's owed share within one expense, with its forward-only `paid`
flag. -/
structure Participation where
  member : Nat
  share : ℚ
  paid : Bool
deriving DecidableEq, Repr

/-- Modelled from the spec: an Expense — payer plus the ordered
participations generated for it at creation/edit time. -/
structure Expense where
  id : Nat
  payer : Nat
  participations : List Participation
deriving DecidableEq, Repr

/-- Modelled from the spec: the mutations a group's ledger state can
undergo — expense creation, edit (regenerating participations), deletion,
and settlement of one member's participation in one expense. -/
inductive LedgerOp where
  | create (id payer : Nat) (shares : List (Nat × ℚ))
  | edit (id payer : Nat) (shares : List (Nat × ℚ))
  | delete (id : Nat)
  | settle (expenseId member : Nat)
deriving DecidableEq, Repr

/-- Fresh unpaid participations from a share mapping. -/
def mkParticipations (shares : List (Nat × ℚ)) : List Participation :=
  shares.map (fun s => { member := s.1, share := s.2, paid := false })

/-- Mark the given member's participations in an expense as paid. -/
def settleIn (e : Expense) (member : Nat) : Expense :=
  { e with participations :=
      e.participations.map (fun p => if p.member = member then { p with paid := true } else p) }

/-- Modelled from the spec: applying one ledger operation to a group's
expense list.  Creation appends an expense with fresh unpaid
participations; editing regenerates the participations of the matching
expense (old ones discarded, all unpaid); deletion removes the expense
and its participations; settlement flips the matching participation's
`paid` flag forward. -/
def applyOp (st : List Expense) : LedgerOp → List Expense
  | .create i payer shares => st ++ [⟨i, payer, mkParticipations shares⟩]
  | .edit i payer shares =>
      st.map (fun e => if e.id = i then ⟨i, payer, mkParticipations shares⟩ else e)
  | .delete i => st.filter (fun e => e.id ≠ i)
  | .settle i member => st.map (fun e => if e.id = i then settleIn e member else e)

/-- A sequence of ledger operations applied to the empty group. -/
def applyOps (ops : List LedgerOp) : List Expense :=
  ops.foldl applyOp []

/-- Modelled from the spec: the Balance Engine.  For every expense in the
group and every unpaid participation, the participant is debited by the
share and the payer credited by the same share; the result is the signed
net amount of the given member. -/
def computeGroupBalances (st : List Expense) (m : Nat) : ℚ :=
  (st.map (fun e =>
    ((e.participations.filter (fun p => !p.paid)).map (fun p =>
      (if e.payer = m then p.share else 0) - (if p.member = m then p.share else 0))).sum)).sum

/-- Every member id an operation can introduce into the state. -/
def opMembers : LedgerOp → List Nat
  | .create _ payer shares => payer :: shares.map Prod.fst
  | .edit _ payer shares => payer :: shares.map Prod.fst
  | .delete _ => []
  | .settle _ _ => []

/-- Every member id occurring in a state (payers and participants). -/
def stateMembers (st : List Expense) : List Nat :=
  st.flatMap (fun e => e.payer :: e.participations.map Participation.member)

/-- Modelled from the spec: the ordering of reminder candidates — amount
owed descending, ties broken by member id ascending. -/
def candOrder (x y : Nat × ℚ) : Prop :=
  y.2 < x.2 ∨ (x.2 = y.2 ∧ x.1 ≤ y.1)

instance : DecidableRel candOrder := fun x y =>
  inferInstanceAs (Decidable (y.2 < x.2 ∨ (x.2 = y.2 ∧ x.1 ≤ y.1)))

instance : IsTotal (Nat × ℚ) candOrder where
  total x y := by
    rcases lt_trichotomy x.2 y.2 with h | h | h
    · exact Or.inr (Or.inl h)
    · rcases le_total x.1 y.1 with h1 | h1
      · exact Or.inl (Or.inr ⟨h, h1⟩)
      · exact Or.inr (Or.inr ⟨h.symm, h1⟩)
    · exact Or.inl (Or.inl h)

instance : IsTrans (Nat × ℚ) candOrder where
  trans x y z hxy hyz := by
    rcases hxy with h1 | ⟨h1, h1'⟩
    · rcases hyz with h2 | ⟨h2, h2'⟩
      · exact Or.inl (h2.trans h1)
      · exact Or.inl (h2 ▸ h1)
    · rcases hyz with h2 | ⟨h2, h2'⟩
      · exact Or.inl (h1 ▸ h2)
      · exact Or.inr ⟨h1.trans h2, h1'.trans h2'⟩

/-- Modelled from the spec: the Reminder Candidate Selector.  From the
Balance Engine's per-member net balances, keep the members whose net is
negative with absolute value at least `minimumAmount`, as
`(memberId, amountOwed)` pairs, ordered by amount owed descending with
ties broken by member id ascending. -/
def candidates (balances : List (Nat × ℚ)) (minimumAmount : ℚ) : List (Nat × ℚ) :=
  List.insertionSort candOrder
    ((balances.filter (fun b => decide (b.2 < 0 ∧ minimumAmount ≤ -b.2))).map
      (fun b => (b.1, -b.2)))

/-- Modelled from the spec: a Settlement Ledger row, addressable by
participation id. -/
structure LedgerRow where
  pid : Nat
  member : Nat
  share : ℚ
  paid : Bool
  method : Option String
deriving DecidableEq, Repr

/-- The Settlement Ledger's error taxonomy for `markSettled`. -/
inductive LedgerError where
  | notFound
  | conflict
deriving DecidableEq, Repr

/-- Modelled from the spec: `markSettled(participationId, method)` of the
Settlement Ledger.  Fails with `NotFoundError` if no row carries the id,
with `ConflictError` if the row is already settled (re-settling is
rejected, not silently accepted), and otherwise returns the updated
participation together with the updated ledger. -/
def markSettled (ledger : List LedgerRow) (pid : Nat) (method : String) :
    Except LedgerError (LedgerRow × List LedgerRow) :=
  match ledger.find? (fun r => r.pid = pid) with
  | none => .error .notFound
  | some r =>
      if r.paid then .error .conflict
      else
        let r' := { r with paid := true, method := some method }
        .ok (r', ledger.map (fun q => if q.pid = pid then r' else q))

/-- The `equal` branch of `calculateSplit`, as an equation. -/
theorem calculateSplit_equal_def (amount : ℚ) (ps : List Nat) (d : SplitData) :
    calculateSplit amount ps "equal" d =
      ps.map (fun pid => (pid, amount / (ps.length : ℚ))) := rfl

/-- The `exact` branch of `calculateSplit`, as an equation. -/
theorem calculateSplit_exact_def (amount : ℚ) (ps : List Nat) (d : SplitData) :
    calculateSplit amount ps "exact" d = d.amounts := rfl

/-- The `percentage` branch of `calculateSplit`, as an equation. -/
theorem calculateSplit_percentage_def (amount : ℚ) (ps : List Nat) (d : SplitData) :
    calculateSplit amount ps "percentage" d =
      ps.map (fun pid => (pid, amount * lookupD d.percentages pid 0 / 100)) := rfl

/-- `lookupD` on the empty map yields the default. -/
theorem lookupD_nil (k : Nat) (d : ℚ) : lookupD [] k d = d := rfl

/-- `lookupD` on a non-empty map: first-entry match or recurse. -/
theorem lookupD_cons (a : Nat) (v : ℚ) (t : List (Nat × ℚ)) (k : Nat) (d : ℚ) :
    lookupD ((a, v) :: t) k d = if k = a then v else lookupD t k d := by
  by_cases h : k = a
  · subst h
    simp [lookupD, List.lookup]
  · have hb : (k == a) = false := by simpa using h
    simp [lookupD, List.lookup, hb, h]

/-- Looking a key up in a list of `(x, f x)` pairs built over a list
containing that key yields `f` at the key. -/
theorem lookup_map_pair (l : List Nat) (f : Nat → ℚ) (pid : Nat) (h : pid ∈ l) :
    (l.map (fun x => (x, f x))).lookup pid = some (f pid) := by
  induction l with
  | nil => cases h
  | cons a t ih =>
    by_cases hpa : pid = a
    · subst hpa
      simp [List.lookup]
    · have hb : (pid == a) = false := by simpa using hpa
      rcases List.mem_cons.mp h with rfl | hm
      · exact absurd rfl hpa
      · rw [List.map_cons, List.lookup_cons, hb]
        exact ih hm

/-- C2, counterexample.  The claim states that for an equal split each
share is `totalAmount / count` banker's-rounded to the currency minor
unit (with the residual cent going to the first participant; the spec's
own scenario gives the first participant of a $100 three-way split
$33.34).  The code does not round: on `amount = 100` with three
participants the first participant's share is exactly `100 / 3`, which
is not a whole number of cents at all, in particular not `33.34`. -/
theorem calculateSplit_equal_unrounded :
    (calculateSplit 100 [1, 2, 3] "equal" ⟨[], []⟩).lookup 1 = some (100 / 3) ∧
      ¬ ∃ k : ℤ, (100 : ℚ) / 3 = (k : ℚ) / 100 := by
  refine ⟨by norm_num [calculateSplit, List.lookup], ?_⟩
  rintro ⟨k, hk⟩
  rw [div_eq_div_iff (by norm_num) (by norm_num)] at hk
  have hk' : (10000 : ℤ) = k * 3 := by exact_mod_cast hk
  omega

/-- C2, amended.  For a valid equal split (non-empty, duplicate-free
participant list, positive amount) every share equals the unrounded
quotient `totalAmount / count`, and in exact rational arithmetic the
shares sum to `totalAmount`; no rounding to the minor unit and no
residual-cent assignment takes place. -/
theorem calculateSplit_equal_sum (amount : ℚ) (participants : List Nat)
    (data : SplitData) (hpos : 0 < amount) (hne : participants ≠ [])
    (hnd : participants.Nodup) :
    (∀ pid share, (pid, share) ∈ calculateSplit amount participants "equal" data →
        share = amount / (participants.length : ℚ)) ∧
      sumShares (calculateSplit amount participants "equal" data) = amount := by
  have hlen : (participants.length : ℚ) ≠ 0 :=
    Nat.cast_ne_zero.mpr (List.length_pos.mpr hne).ne'
  constructor
  · intro pid share hmem
    rw [calculateSplit_equal_def] at hmem
    obtain ⟨x, -, hx⟩ := List.mem_map.mp hmem
    exact ((Prod.mk.injEq _ _ _ _).mp hx).2.symm
  · rw [calculateSplit_equal_def, sumShares, List.map_map]
    have : (Prod.snd ∘ fun pid => (pid, amount / (participants.length : ℚ))) =
        fun _ : Nat => amount / (participants.length : ℚ) := rfl
    rw [this, List.map_const', List.sum_replicate, nsmul_eq_mul,
      mul_div_cancel₀ _ hlen]

/-- Witness for `calculateSplit_equal_sum` at `amount = 90`,
participants `[1, 2, 3]`. -/
theorem calculateSplit_equal_sum_witness :
    (∀ pid share, (pid, share) ∈ calculateSplit 90 [1, 2, 3] "equal" ⟨[], []⟩ →
        share = 90 / (([1, 2, 3] : List Nat).length : ℚ)) ∧
      sumShares (calculateSplit 90 [1, 2, 3] "equal" ⟨[], []⟩) = 90 :=
  calculateSplit_equal_sum 90 [1, 2, 3] ⟨[], []⟩ (by norm_num) (by simp)
    (by simp)

/-- C3, counterexample.  The claim states that for a percentage split each
share is `round(totalAmount × percentage / 100)` to the minor unit (with
a first-participant residual correction).  The code does not round: on
`amount = 10` with percentages `33.33 / 33.33 / 33.34` (summing to 100)
the first participant's share is exactly `3.333`, which is not a whole
number of cents. -/
theorem calculateSplit_percentage_unrounded :
    (calculateSplit 10 [1, 2, 3] "percentage"
        ⟨[], [(1, 3333 / 100), (2, 3333 / 100), (3, 3334 / 100)]⟩).lookup 1 =
      some (3333 / 1000) ∧
      (3333 : ℚ) / 100 + 3333 / 100 + 3334 / 100 = 100 ∧
      ¬ ∃ k : ℤ, (3333 : ℚ) / 1000 = (k : ℚ) / 100 := by
  refine ⟨by norm_num [calculateSplit_percentage_def, lookupD, List.lookup],
    by norm_num, ?_⟩
  rintro ⟨k, hk⟩
  rw [div_eq_div_iff (by norm_num) (by norm_num)] at hk
  have hk' : (333300 : ℤ) = k * 1000 := by exact_mod_cast hk
  omega

/-- C3, amended.  For a percentage split over a duplicate-free
participant list whose effective percentages (missing entries count as
0) sum to 100, every share equals the unrounded product
`totalAmount × percentage / 100`, and in exact rational arithmetic the
shares sum to `totalAmount`; no rounding to the minor unit and no
residual-cent correction takes place. -/
theorem calculateSplit_percentage_sum (amount : ℚ) (participants : List Nat)
    (data : SplitData) (hnd : participants.Nodup)
    (hsum : (participants.map (fun pid => lookupD data.percentages pid 0)).sum = 100) :
    (∀ pid share, (pid, share) ∈ calculateSplit amount participants "percentage" data →
        share = amount * lookupD data.percentages pid 0 / 100) ∧
      sumShares (calculateSplit amount participants "percentage" data) = amount := by
  constructor
  · intro pid share hmem
    rw [calculateSplit_percentage_def] at hmem
    obtain ⟨x, -, hx⟩ := List.mem_map.mp hmem
    obtain ⟨h1, h2⟩ := (Prod.mk.injEq _ _ _ _).mp hx
    rw [← h2, h1]
  · rw [calculateSplit_percentage_def, sumShares, List.map_map]
    have heq : (Prod.snd ∘ fun pid => (pid, amount * lookupD data.percentages pid 0 / 100)) =
        fun pid => amount / 100 * lookupD data.percentages pid 0 := by
      funext pid
      show amount * lookupD data.percentages pid 0 / 100 = _
      ring
    rw [heq, List.sum_map_mul_left, hsum]
    ring

/-- Witness for `calculateSplit_percentage_sum`: `amount = 80`,
participants `[1, 2]`, percentages `25` and `75`. -/
theorem calculateSplit_percentage_sum_witness :
    (∀ pid share, (pid, share) ∈ calculateSplit 80 [1, 2] "percentage"
          ⟨[], [(1, 25), (2, 75)]⟩ →
        share = 80 * lookupD [(1, 25), (2, 75)] pid 0 / 100) ∧
      sumShares (calculateSplit 80 [1, 2] "percentage" ⟨[], [(1, 25), (2, 75)]⟩) = 80 :=
  calculateSplit_percentage_sum 80 [1, 2] ⟨[], [(1, 25), (2, 75)]⟩ (by simp)
    (by norm_num [lookupD_cons, lookupD_nil])

/-- C4, counterexample.  The claim states that an `exact` split whose
supplied amounts do not sum to `totalAmount` within one minor unit fails
with `ValidationError`.  The code performs no validation: with
`totalAmount = 100` and supplied amounts `{1 ↦ 10}` (off by 90) it
returns the supplied mapping unchanged. -/
theorem calculateSplit_exact_no_validation :
    calculateSplit 100 [1, 2] "exact" ⟨[(1, 10)], []⟩ = [(1, 10)] ∧
      sumShares [(1, 10)] = 10 ∧ (1 : ℚ) / 100 < 100 - 10 :=
  ⟨rfl, by norm_num [sumShares], by norm_num⟩

/-- C4, amended.  The `exact` method performs no validation: even when
the supplied amounts differ from `totalAmount` by more than one minor
unit, the supplied mapping is returned unchanged (and no error is
raised). -/
theorem calculateSplit_exact_returns_amounts (amount : ℚ) (ps : List Nat)
    (data : SplitData) (hbad : 1 / 100 < |sumShares data.amounts - amount|) :
    calculateSplit amount ps "exact" data = data.amounts :=
  calculateSplit_exact_def amount ps data

/-- Witness for `calculateSplit_exact_returns_amounts` at
`amount = 100`, amounts `{1 ↦ 10}`. -/
theorem calculateSplit_exact_returns_amounts_witness :
    calculateSplit 100 [1, 2] "exact" ⟨[(1, 10)], []⟩ = [(1, 10)] :=
  calculateSplit_exact_returns_amounts 100 [1, 2] ⟨[(1, 10)], []⟩
    (by
      have hs : sumShares [(1, 10)] = 10 := by norm_num [sumShares]
      rw [hs, show (10 : ℚ) - 100 = -90 by norm_num, abs_neg,
        abs_of_nonneg (by norm_num : (0 : ℚ) ≤ 90)]
      norm_num)

/-- C5, counterexample.  The claim states that a percentage split whose
percentages do not sum to 100 (±0.01) fails with `ValidationError`.  The
code performs no validation: with percentages `{1 ↦ 10, 2 ↦ 10}`
(summing to 20) it returns a share mapping. -/
theorem calculateSplit_percentage_no_error_on_bad_sum :
    calculateSplit 100 [1, 2] "percentage" ⟨[], [(1, 10), (2, 10)]⟩ =
      [(1, 10), (2, 10)] ∧ (10 : ℚ) + 10 = 20 ∧ (1 : ℚ) / 100 < 100 - 20 :=
  ⟨by norm_num [calculateSplit_percentage_def, lookupD_cons, lookupD_nil],
    by norm_num, by norm_num⟩

/-- C5, amended.  The `percentage` method performs no validation of the
percentage sum: even when the effective percentages differ from 100 by
more than 0.01, every participant is assigned
`totalAmount × percentage / 100` (and no error is raised). -/
theorem calculateSplit_percentage_no_validation (amount : ℚ) (ps : List Nat)
    (data : SplitData) (pid : Nat) (hmem : pid ∈ ps)
    (hbad : 1 / 100 < |(ps.map (fun q => lookupD data.percentages q 0)).sum - 100|) :
    (calculateSplit amount ps "percentage" data).lookup pid =
      some (amount * lookupD data.percentages pid 0 / 100) := by
  rw [calculateSplit_percentage_def]
  exact lookup_map_pair ps _ pid hmem

/-- Witness for `calculateSplit_percentage_no_validation` at
`amount = 100`, participants `[1, 2]`, percentages `{1 ↦ 10, 2 ↦ 10}`. -/
theorem calculateSplit_percentage_no_validation_witness :
    (calculateSplit 100 [1, 2] "percentage" ⟨[], [(1, 10), (2, 10)]⟩).lookup 1 =
      some (100 * lookupD [(1, 10), (2, 10)] 1 0 / 100) :=
  calculateSplit_percentage_no_validation 100 [1, 2] ⟨[], [(1, 10), (2, 10)]⟩ 1
    (by simp) (by
      have hs : (List.map (fun q => lookupD (⟨[], [(1, 10), (2, 10)]⟩ : SplitData).percentages q 0)
          ([1, 2] : List Nat)).sum = 20 := by
        norm_num [lookupD_cons, lookupD_nil]
      rw [hs, show (20 : ℚ) - 100 = -80 by norm_num, abs_neg,
        abs_of_nonneg (by norm_num : (0 : ℚ) ≤ 80)]
      norm_num)

/-- C6, counterexample.  The claim states that an empty participant set,
a non-positive `totalAmount`, or an unrecognized method fails with
`ValidationError`.  The code raises no error in any of these cases: an
empty participant set yields the empty mapping, a negative amount yields
a normal share mapping with negative shares, and an unrecognized method
yields the empty mapping. -/
theorem calculateSplit_no_input_validation :
    calculateSplit 100 [] "equal" ⟨[], []⟩ = [] ∧
      calculateSplit (-5) [1] "equal" ⟨[], []⟩ = [(1, -5)] ∧
      calculateSplit 100 [1] "unknown" ⟨[], []⟩ = [] :=
  ⟨rfl, by norm_num [calculateSplit_equal_def], rfl⟩

/-- C6, amended.  `calculateSplit` never fails: an empty participant set
yields the empty mapping for the `equal` and `percentage` methods, an
unrecognized method yields the empty mapping, and a non-positive
`totalAmount` is processed normally, assigning each participant
`totalAmount / count`. -/
theorem calculateSplit_never_fails (amount : ℚ) (ps : List Nat) (m : String)
    (d : SplitData) :
    calculateSplit amount [] "equal" d = [] ∧
      calculateSplit amount [] "percentage" d = [] ∧
      (m ≠ "equal" → m ≠ "exact" → m ≠ "percentage" →
        calculateSplit amount ps m d = []) ∧
      (amount ≤ 0 → ∀ pid ∈ ps, (calculateSplit amount ps "equal" d).lookup pid =
        some (amount / (ps.length : ℚ))) := by
  refine ⟨rfl, rfl, fun h1 h2 h3 => by simp [calculateSplit, h1, h2, h3],
    fun _ pid hmem => ?_⟩
  rw [calculateSplit_equal_def]
  exact lookup_map_pair ps _ pid hmem

/-- Witness for `calculateSplit_never_fails` at `amount = -5`,
participants `[7]`, method `tiered`. -/
theorem calculateSplit_never_fails_witness :
    calculateSplit (-5) [] "equal" ⟨[], []⟩ = [] ∧
      calculateSplit (-5) [] "percentage" ⟨[], []⟩ = [] ∧
      calculateSplit (-5) [7] "tiered" ⟨[], []⟩ = [] ∧
      (calculateSplit (-5) [7] "equal" ⟨[], []⟩).lookup 7 =
        some ((-5) / (([7] : List Nat).length : ℚ)) := by
  obtain ⟨h1, h2, h3, h4⟩ := calculateSplit_never_fails (-5) [7] "tiered" ⟨[], []⟩
  exact ⟨h1, h2, h3 (by decide) (by decide) (by decide),
    h4 (by norm_num) 7 (by simp)⟩

/-- C9.  For any amount, participant list and method data, a method
string that is none of `equal` / `exact` / `percentage` falls through to
the default branch, which returns the empty mapping: no participant is
assigned a share and no error is raised. -/
theorem calculateSplit_default_empty (amount : ℚ) (ps : List Nat) (m : String)
    (d : SplitData) (h1 : m ≠ "equal") (h2 : m ≠ "exact") (h3 : m ≠ "percentage") :
    calculateSplit amount ps m d = [] := by
  simp [calculateSplit, h1, h2, h3]

/-- Witness for `calculateSplit_default_empty` at method `weighted`. -/
theorem calculateSplit_default_empty_witness :
    calculateSplit 42 [1, 2] "weighted" ⟨[(1, 1)], [(2, 2)]⟩ = [] :=
  calculateSplit_default_empty 42 [1, 2] "weighted" ⟨[(1, 1)], [(2, 2)]⟩
    (by decide) (by decide) (by decide)

/-- C10.  For the `percentage` method, a participant whose id has no
entry in `data.percentages` is treated as having percentage 0 (via the
JS `|| 0` default) and is silently assigned a share of 0 in the returned
mapping. -/
theorem calculateSplit_percentage_missing_zero (amount : ℚ) (ps : List Nat)
    (d : SplitData) (pid : Nat) (hmem : pid ∈ ps)
    (hnone : d.percentages.lookup pid = none) :
    (calculateSplit amount ps "percentage" d).lookup pid = some 0 := by
  rw [calculateSplit_percentage_def, lookup_map_pair ps _ pid hmem]
  simp [lookupD, hnone]

/-- Witness for `calculateSplit_percentage_missing_zero`: participant 2
has no percentage entry. -/
theorem calculateSplit_percentage_missing_zero_witness :
    (calculateSplit 100 [1, 2] "percentage" ⟨[], [(1, 100)]⟩).lookup 2 = some 0 :=
  calculateSplit_percentage_missing_zero 100 [1, 2] ⟨[], [(1, 100)]⟩ 2
    (by simp) (by rfl)

/-- With duplicate-free participation ids, `find?` on the id locates the
given row. -/
theorem find?_pid_of_nodup (ledger : List LedgerRow) (pid : Nat) (r : LedgerRow)
    (hmem : r ∈ ledger) (hpid : r.pid = pid)
    (hnd : (ledger.map LedgerRow.pid).Nodup) :
    ledger.find? (fun q => q.pid = pid) = some r := by
  induction ledger with
  | nil => cases hmem
  | cons a t ih =>
    rw [List.map_cons, List.nodup_cons] at hnd
    rcases List.mem_cons.mp hmem with rfl | hmt
    · exact List.find?_cons_of_pos _ (by simp [hpid])
    · have ha : a.pid ≠ pid := by
        intro h
        exact hnd.1 (List.mem_map.mpr ⟨r, hmt, by rw [hpid, h]⟩)
      rw [List.find?_cons_of_neg _ (by simp [ha])]
      exact ih hmt hnd.2

/-- C8.  `markSettled` rejects rather than silently accepts: when the
ledger (with duplicate-free participation ids) holds an already-settled
row with the requested id, the call fails with `ConflictError` — it
returns an error and no updated ledger, so the ledger state is unchanged
by the failed call — and when no row carries the id it fails with
`NotFoundError`. -/
theorem markSettled_rejects (ledger : List LedgerRow) (pid : Nat) (method : String) :
    (∀ r ∈ ledger, r.pid = pid → r.paid = true →
        (ledger.map LedgerRow.pid).Nodup →
        markSettled ledger pid method = .error .conflict) ∧
      ((∀ r ∈ ledger, r.pid ≠ pid) →
        markSettled ledger pid method = .error .notFound) := by
  constructor
  · intro r hmem hpid hpaid hnd
    rw [markSettled, find?_pid_of_nodup ledger pid r hmem hpid hnd]
    simp [hpaid]
  · intro hno
    have hfind : ledger.find? (fun q => q.pid = pid) = none := by
      rw [List.find?_eq_none]
      intro r hr
      simpa using hno r hr
    rw [markSettled, hfind]

/-- Witness for `markSettled_rejects`: a single already-settled row is
re-settled (conflict), and a missing id is settled (not found). -/
theorem markSettled_rejects_witness :
    markSettled [⟨1, 2, 10, true, some "cash"⟩] 1 "cash" = .error .conflict ∧
      markSettled [⟨1, 2, 10, true, some "cash"⟩] 5 "cash" = .error .notFound := by
  obtain ⟨h1, -⟩ := markSettled_rejects [⟨1, 2, 10, true, some "cash"⟩] 1 "cash"
  obtain ⟨-, h2⟩ := markSettled_rejects [⟨1, 2, 10, true, some "cash"⟩] 5 "cash"
  exact ⟨h1 ⟨1, 2, 10, true, some "cash"⟩ (by simp) rfl rfl (by simp),
    h2 (by simp)⟩

/-- C7.  `candidates` returns exactly the members whose net balance is
negative with absolute value at least `minimumAmount`, as
`(memberId, amountOwed)` pairs, in an order sorted by amount owed
descending with ties broken by member id ascending; and on the spec's
scenario balances `{A ↦ +50, B ↦ -30, C ↦ -5}` (ids 0, 1, 2) with
`minimumAmount = 10` it returns exactly `[(B, 30)]`. -/
theorem candidates_correct (balances : List (Nat × ℚ)) (minimumAmount : ℚ)
    (x : Nat × ℚ) :
    (x ∈ candidates balances minimumAmount ↔
        ∃ m b, (m, b) ∈ balances ∧ b < 0 ∧ minimumAmount ≤ -b ∧ x = (m, -b)) ∧
      (candidates balances minimumAmount).Sorted candOrder ∧
      candidates [(0, 50), (1, -30), (2, -5)] 10 = [(1, 30)] := by
  refine ⟨?_, by rw [candidates]; exact List.sorted_insertionSort _ _, ?_⟩
  · rw [candidates, List.mem_insertionSort, List.mem_map]
    constructor
    · rintro ⟨⟨m, b⟩, hmem, rfl⟩
      rw [List.mem_filter] at hmem
      obtain ⟨h1, h2⟩ := hmem
      have h3 := of_decide_eq_true h2
      exact ⟨m, b, h1, h3.1, h3.2, rfl⟩
    · rintro ⟨m, b, h1, h2, h3, rfl⟩
      exact ⟨(m, b), List.mem_filter.mpr ⟨h1, decide_eq_true ⟨h2, h3⟩⟩, rfl⟩
  · have hA : decide (((50 : ℚ) < 0) ∧ (10 : ℚ) ≤ -(50 : ℚ)) = false := by
      rw [decide_eq_false_iff_not]
      norm_num
    have hB : decide (((-30 : ℚ) < 0) ∧ (10 : ℚ) ≤ -(-30 : ℚ)) = true := by
      rw [decide_eq_true_eq]
      norm_num
    have hC : decide (((-5 : ℚ) < 0) ∧ (10 : ℚ) ≤ -(-5 : ℚ)) = false := by
      rw [decide_eq_false_iff_not]
      norm_num
    simp only [candidates, List.filter_cons, List.filter_nil, hA, hB, hC]
    norm_num [List.insertionSort, List.orderedInsert]

/-- Interchange of a `Finset` sum with a list sum. -/
theorem finset_sum_list_sum {α : Type} (S : Finset Nat) (l : List α)
    (f : α → Nat → ℚ) :
    ∑ m ∈ S, (l.map (fun e => f e m)).sum = (l.map (fun e => ∑ m ∈ S, f e m)).sum := by
  induction l with
  | nil => simp
  | cons a t ih => simp [Finset.sum_add_distrib, ih]

/-- The zero-sum invariant for any ledger state all of whose payers and
participants lie in `S`. -/
theorem computeGroupBalances_sum_zero (st : List Expense) (S : Finset Nat)
    (hS : ∀ m ∈ stateMembers st, m ∈ S) :
    ∑ m ∈ S, computeGroupBalances st m = 0 := by
  unfold computeGroupBalances
  rw [finset_sum_list_sum]
  apply List.sum_eq_zero
  intro x hx
  obtain ⟨e, he, rfl⟩ := List.mem_map.mp hx
  rw [finset_sum_list_sum]
  apply List.sum_eq_zero
  intro y hy
  obtain ⟨p, hp, rfl⟩ := List.mem_map.mp hy
  have hpayer : e.payer ∈ S :=
    hS _ (List.mem_flatMap.mpr ⟨e, he, List.mem_cons_self _ _⟩)
  have hmember : p.member ∈ S := by
    refine hS _ (List.mem_flatMap.mpr ⟨e, he, List.mem_cons_of_mem _ ?_⟩)
    exact List.mem_map_of_mem _ (List.mem_of_mem_filter hp)
  rw [Finset.sum_sub_distrib, Finset.sum_ite_eq S e.payer (fun _ => p.share),
    Finset.sum_ite_eq S p.member (fun _ => p.share), if_pos hpayer,
    if_pos hmember, sub_self]

/-- Settling a member's participations does not change the member list of
an expense. -/
theorem settleIn_member_map (e : Expense) (mm : Nat) :
    (settleIn e mm).participations.map Participation.member =
      e.participations.map Participation.member := by
  simp only [settleIn, List.map_map]
  apply List.map_congr_left
  intro p hp
  by_cases h : p.member = mm <;> simp [h]

/-- Every member occurring after one ledger operation occurred before it
or is introduced by the operation. -/
theorem mem_stateMembers_applyOp {st : List Expense} {op : LedgerOp} {m : Nat}
    (hm : m ∈ stateMembers (applyOp st op)) :
    m ∈ stateMembers st ∨ m ∈ opMembers op := by
  cases op with
  | create i payer shares =>
    rw [applyOp, stateMembers, List.flatMap_append] at hm
    rcases List.mem_append.mp hm with h | h
    · exact Or.inl h
    · right
      simp only [List.flatMap_cons, List.flatMap_nil, List.append_nil] at h
      rw [opMembers]
      rcases List.mem_cons.mp h with rfl | h2
      · exact List.mem_cons_self _ _
      · refine List.mem_cons_of_mem _ ?_
        rw [mkParticipations, List.map_map] at h2
        simpa using h2
  | edit i payer shares =>
    rw [applyOp, stateMembers] at hm
    obtain ⟨e, he, hme⟩ := List.mem_flatMap.mp hm
    obtain ⟨e0, he0, rfl⟩ := List.mem_map.mp he
    by_cases hid : e0.id = i
    · rw [if_pos hid] at hme
      right
      rw [opMembers]
      rcases List.mem_cons.mp hme with rfl | h2
      · exact List.mem_cons_self _ _
      · refine List.mem_cons_of_mem _ ?_
        rw [mkParticipations, List.map_map] at h2
        simpa using h2
    · rw [if_neg hid] at hme
      exact Or.inl (List.mem_flatMap.mpr ⟨e0, he0, hme⟩)
  | delete i =>
    rw [applyOp, stateMembers] at hm
    obtain ⟨e, he, hme⟩ := List.mem_flatMap.mp hm
    exact Or.inl (List.mem_flatMap.mpr ⟨e, List.mem_of_mem_filter he, hme⟩)
  | settle i mm =>
    rw [applyOp, stateMembers] at hm
    obtain ⟨e, he, hme⟩ := List.mem_flatMap.mp hm
    obtain ⟨e0, he0, rfl⟩ := List.mem_map.mp he
    left
    refine List.mem_flatMap.mpr ⟨e0, he0, ?_⟩
    by_cases hid : e0.id = i
    · rw [if_pos hid] at hme
      rcases List.mem_cons.mp hme with rfl | h2
      · exact List.mem_cons_self _ _
      · rw [settleIn_member_map] at h2
        exact List.mem_cons_of_mem _ h2
    · rw [if_neg hid] at hme
      exact hme

/-- Every member occurring after a sequence of ledger operations occurred
in the initial state or is introduced by one of the operations. -/
theorem mem_stateMembers_foldl (ops : List LedgerOp) (st : List Expense) (m : Nat)
    (hm : m ∈ stateMembers (ops.foldl applyOp st)) :
    m ∈ stateMembers st ∨ ∃ op ∈ ops, m ∈ opMembers op := by
  induction ops generalizing st with
  | nil => exact Or.inl hm
  | cons a t ih =>
    rcases ih (applyOp st a) (by simpa using hm) with h | ⟨op, hop, hmem⟩
    · rcases mem_stateMembers_applyOp h with h2 | h2
      · exact Or.inl h2
      · exact Or.inr ⟨a, List.mem_cons_self _ _, h2⟩
    · exact Or.inr ⟨op, List.mem_cons_of_mem _ hop, hmem⟩

/-- C1.  For any sequence of expense creations, edits, deletions and
settlements applied to an initially empty group, and any member set `S`
covering every member the operations reference, the per-member net
balances produced by `computeGroupBalances` sum to 0: every unpaid
participation debits the participant and credits the payer by the same
share, so the contributions cancel member-by-member. -/
theorem zero_sum_invariant (ops : List LedgerOp) (S : Finset Nat)
    (hS : ∀ op ∈ ops, ∀ m ∈ opMembers op, m ∈ S) :
    ∑ m ∈ S, computeGroupBalances (applyOps ops) m = 0 := by
  apply computeGroupBalances_sum_zero
  intro m hm
  rw [applyOps] at hm
  rcases mem_stateMembers_foldl ops [] m hm with h | ⟨op, hop, hmem⟩
  · simp [stateMembers] at h
  · exact hS op hop m hmem

/-- Witness for `zero_sum_invariant`: member 0 pays an expense split
50/50 over members 1 and 2, after which member 1 settles; the balances
over `{0, 1, 2}` sum to 0. -/
theorem zero_sum_invariant_witness :
    ∑ m ∈ ({0, 1, 2} : Finset Nat),
        computeGroupBalances
          (applyOps [.create 1 0 [(1, 50), (2, 50)], .settle 1 1]) m = 0 :=
  zero_sum_invariant [.create 1 0 [(1, 50), (2, 50)], .settle 1 1] {0, 1, 2}
    (by
      intro op hop m hm
      rcases List.mem_cons.mp hop with rfl | hop2
      · simp only [opMembers] at hm
        simp at hm
        rcases hm with rfl | rfl | rfl <;> simp
      · rcases List.mem_cons.mp hop2 with rfl | hop3
        · simp [opMembers] at hm
        · cases hop3)

end Bill
